import Mathlib

/-
Verification development for the streaming response assembler of
src/components/DisasterChatbot.tsx (functions streamChat and handleSend).

The embedding models decoded text as List Char (the stateful TextDecoder
with stream:true makes byte-level splits inside a multi-byte character
equivalent to character-level splits, so chunks are modelled as lists of
characters).  The transcript store (React state updated through
functional setMessages updates) is modelled as a List Msg field threaded
through the decoder state.  JSON.parse is modelled by an executable
recursive-descent parser for the JSON grammar (ECMA-404) returning an
abstract syntax tree; number literals keep their source text.
-/

set_option maxHeartbeats 1000000
set_option maxRecDepth 10000

namespace DisasterChat

/-- Message roles, per the Message interface of DisasterChatbot.tsx. -/
inductive Role where
  | user
  | assistant
deriving DecidableEq

/-- A transcript entry: role plus content text. -/
structure Msg where
  role : Role
  content : List Char
deriving DecidableEq

mutual

/-- JSON values as produced by JSON.parse.  Numbers keep their literal
source text (their numeric value is never needed by the component except
for truthiness, decided from the literal).  Arrays and objects carry
their own list types so that all recursion over values is structural. -/
inductive Json where
  | null
  | bool (b : Bool)
  | num (raw : List Char)
  | str (s : List Char)
  | arr (elems : JsonList)
  | obj (fields : JsonFields)

/-- A list of JSON array elements. -/
inductive JsonList where
  | nil
  | cons (hd : Json) (tl : JsonList)

/-- Object fields in source order (duplicates possible). -/
inductive JsonFields where
  | nil
  | cons (key : List Char) (val : Json) (tl : JsonFields)

end

/-- Build a JsonList from a plain list (parser accumulator). -/
def jsonListOf : List Json → JsonList
  | [] => .nil
  | v :: vs => .cons v (jsonListOf vs)

/-- Build JsonFields from a plain list (parser accumulator). -/
def jsonFieldsOf : List (List Char × Json) → JsonFields
  | [] => .nil
  | p :: ps => .cons p.1 p.2 (jsonFieldsOf ps)

/-- The value of the last field with the given key, as JS property
assignment order semantics dictate (later duplicates override). -/
def lookupLast (fs : JsonFields) (name : List Char) : Option Json :=
  match fs with
  | .nil => none
  | .cons k v tl =>
    match lookupLast tl name with
    | some w => some w
    | none => if k = name then some v else none

/-! ### JavaScript string helpers -/

/-- JavaScript whitespace for String.prototype.trim (the characters that
can realistically occur here; exotic Unicode Zs spaces are omitted). -/
def isJsWS (c : Char) : Bool :=
  c == ' ' || c == '\t' || c == '\n' || c == '\r' ||
  c == Char.ofNat 11 || c == Char.ofNat 12 || c == Char.ofNat 160 || c == Char.ofNat 65279

/-- Strip trailing JS whitespace. -/
def trimRight (cs : List Char) : List Char :=
  (cs.reverse.dropWhile isJsWS).reverse

/-- Strip leading JS whitespace. -/
def trimLeft (cs : List Char) : List Char :=
  cs.dropWhile isJsWS

/-- JavaScript String.prototype.trim. -/
def trim (cs : List Char) : List Char :=
  trimLeft (trimRight cs)

/-- `if (line.endsWith("\r")) line = line.slice(0, -1)` -/
def stripCR (cs : List Char) : List Char :=
  if cs.getLast? = some '\r' then cs.dropLast else cs

/-- `line.startsWith(":")` -/
def startsWithColon (cs : List Char) : Bool :=
  match cs with
  | ':' :: _ => true
  | _ => false

/-- `line.startsWith("data: ")` -/
def startsWithData (cs : List Char) : Bool :=
  "data: ".toList.isPrefixOf cs

/-- The termination sentinel payload. -/
def doneLit : List Char := "[DONE]".toList

/-- `textBuffer.indexOf("\n")`: the first complete line of the buffer and
the remainder after its newline, or none when no newline is present. -/
def splitAtNewline (cs : List Char) : Option (List Char × List Char) :=
  if '\n' ∈ cs then
    some (cs.takeWhile (fun c => c != '\n'), (cs.dropWhile (fun c => c != '\n')).tail)
  else none

/-! ### JSON.parse model -/

/-- JSON grammar whitespace (space, tab, newline, carriage return). -/
def isJsonWS (c : Char) : Bool :=
  c == ' ' || c == '\t' || c == '\n' || c == '\r'

def skipJsonWS (cs : List Char) : List Char :=
  cs.dropWhile isJsonWS

/-- Hexadecimal digit value. -/
def hexVal (c : Char) : Option Nat :=
  if c.isDigit then some (c.toNat - 48)
  else if 'a' ≤ c ∧ c ≤ 'f' then some (c.toNat - 87)
  else if 'A' ≤ c ∧ c ≤ 'F' then some (c.toNat - 55)
  else none

/-- Single-character string escapes. -/
def escChar (c : Char) : Option Char :=
  match c with
  | '"' => some '"'
  | '\\' => some '\\'
  | '/' => some '/'
  | 'b' => some (Char.ofNat 8)
  | 'f' => some (Char.ofNat 12)
  | 'n' => some '\n'
  | 'r' => some '\r'
  | 't' => some '\t'
  | _ => none

/-- Parse the body of a JSON string literal (the opening quote already
consumed); returns the decoded content and the input after the closing
quote.  \uXXXX escapes are decoded with Char.ofNat (a lone surrogate,
which Lean's Char cannot represent, falls back to Char.ofNat's default;
no payload in this development contains one). -/
def pString : List Char → Option (List Char × List Char)
  | [] => none
  | '"' :: rest => some ([], rest)
  | '\\' :: rest =>
    match rest with
    | [] => none
    | 'u' :: r2 =>
      match r2 with
      | h1 :: h2 :: h3 :: h4 :: r3 =>
        match hexVal h1, hexVal h2, hexVal h3, hexVal h4 with
        | some a, some b, some c, some d =>
          (pString r3).map (fun p => (Char.ofNat (((a * 16 + b) * 16 + c) * 16 + d) :: p.1, p.2))
        | _, _, _, _ => none
      | _ => none
    | e :: r2 =>
      match escChar e with
      | some c => (pString r2).map (fun p => (c :: p.1, p.2))
      | none => none
  | c :: rest =>
    if c.toNat < 32 then none
    else (pString rest).map (fun p => (c :: p.1, p.2))

/-- Optional fraction part of a number literal. -/
def pFrac (cs : List Char) : Option (List Char × List Char) :=
  match cs with
  | '.' :: r =>
    let ds := r.takeWhile Char.isDigit
    if ds.isEmpty then none else some ('.' :: ds, r.dropWhile Char.isDigit)
  | _ => some ([], cs)

/-- Optional exponent part of a number literal. -/
def pExp (cs : List Char) : Option (List Char × List Char) :=
  match cs with
  | c :: r =>
    if c == 'e' || c == 'E' then
      let sr : List Char × List Char :=
        match r with
        | '+' :: r2 => (['+'], r2)
        | '-' :: r2 => (['-'], r2)
        | _ => ([], r)
      let ds := sr.2.takeWhile Char.isDigit
      if ds.isEmpty then none else some (c :: (sr.1 ++ ds), sr.2.dropWhile Char.isDigit)
    else some ([], cs)
  | [] => some ([], [])

/-- Parse a JSON number literal, returning its source text. -/
def pNumber (cs : List Char) : Option (Json × List Char) :=
  let sgn : List Char × List Char :=
    match cs with
    | '-' :: r => (['-'], r)
    | _ => ([], cs)
  match sgn.2 with
  | c :: r =>
    let ip : Option (List Char × List Char) :=
      if c == '0' then some (['0'], r)
      else if c.isDigit then some (sgn.2.takeWhile Char.isDigit, sgn.2.dropWhile Char.isDigit)
      else none
    match ip with
    | none => none
    | some q =>
      match pFrac q.2 with
      | none => none
      | some f =>
        match pExp f.2 with
        | none => none
        | some e => some (.num (sgn.1 ++ q.1 ++ f.1 ++ e.1), e.2)
  | [] => none

mutual

/-- Parse a JSON value (fuel-indexed recursive descent). -/
def pValue : Nat → List Char → Option (Json × List Char)
  | 0, _ => none
  | f + 1, cs =>
    match cs with
    | '{' :: rest =>
      match skipJsonWS rest with
      | '}' :: r2 => some (.obj .nil, r2)
      | r2 => pMembers f r2 []
    | '[' :: rest =>
      match skipJsonWS rest with
      | ']' :: r2 => some (.arr .nil, r2)
      | r2 => pElements f r2 []
    | '"' :: rest => (pString rest).map (fun p => (.str p.1, p.2))
    | 't' :: 'r' :: 'u' :: 'e' :: rest => some (.bool true, rest)
    | 'f' :: 'a' :: 'l' :: 's' :: 'e' :: rest => some (.bool false, rest)
    | 'n' :: 'u' :: 'l' :: 'l' :: rest => some (.null, rest)
    | _ => pNumber cs

/-- Parse object members (after '{' and leading whitespace). -/
def pMembers : Nat → List Char → List (List Char × Json) → Option (Json × List Char)
  | 0, _, _ => none
  | f + 1, cs, acc =>
    match cs with
    | '"' :: rest =>
      match pString rest with
      | none => none
      | some k =>
        match skipJsonWS k.2 with
        | ':' :: r2 =>
          match pValue f (skipJsonWS r2) with
          | none => none
          | some v =>
            match skipJsonWS v.2 with
            | ',' :: r3 => pMembers f (skipJsonWS r3) (acc ++ [(k.1, v.1)])
            | '}' :: r3 => some (.obj (jsonFieldsOf (acc ++ [(k.1, v.1)])), r3)
            | _ => none
        | _ => none
    | _ => none

/-- Parse array elements (after '[' and leading whitespace). -/
def pElements : Nat → List Char → List Json → Option (Json × List Char)
  | 0, _, _ => none
  | f + 1, cs, acc =>
    match pValue f cs with
    | none => none
    | some v =>
      match skipJsonWS v.2 with
      | ',' :: r2 => pElements f (skipJsonWS r2) (acc ++ [v.1])
      | ']' :: r2 => some (.arr (jsonListOf (acc ++ [v.1])), r2)
      | _ => none

end

/-- `JSON.parse(jsonStr)`: parse a complete JSON text; fails on empty
input, malformed input, or trailing garbage. -/
def parsePayload (cs : List Char) : Option Json :=
  let body := skipJsonWS cs
  match pValue (body.length + 1) body with
  | some v => if (skipJsonWS v.2).isEmpty then some v.1 else none
  | none => none

/-! ### Property access: `parsed.choices?.[0]?.delta?.content` -/

/-- Property access on a non-nullish JS value: defined (some) only for
objects having the key; later duplicate keys override earlier ones. -/
def propAccess (name : List Char) : Json → Option Json
  | .obj fs => lookupLast fs name
  | _ => none

/-- `?.[0]` index access on a non-nullish JS value: array head, first
character of a string, or the "0" key of an object. -/
def idxAccess0 : Json → Option Json
  | .arr (.cons v _) => some v
  | .arr .nil => none
  | .str s => s.head?.map (fun c => .str [c])
  | .obj fs => lookupLast fs ['0']
  | _ => none

/-- Optional chaining: undefined (none) and JSON null short-circuit. -/
def ochain (f : Json → Option Json) : Option Json → Option Json
  | none => none
  | some .null => none
  | some v => f v

/-- `parsed.choices?.[0]?.delta?.content`.  The first access
(`parsed.choices`, no optional chaining) throws a TypeError when parsed
is null — modelled as `.error ()`, caught by the enclosing catch block. -/
def extractContent : Json → Except Unit (Option Json)
  | .null => .error ()
  | v =>
    .ok (ochain (propAccess "content".toList)
          (ochain (propAccess "delta".toList)
            (ochain idxAccess0 (propAccess "choices".toList v))))

/-- Whether a number literal denotes zero (all mantissa digits are 0). -/
def numIsZero (raw : List Char) : Bool :=
  (raw.takeWhile (fun c => !(c == 'e') && !(c == 'E'))).all
    (fun c => !c.isDigit || c == '0')

/-- JavaScript truthiness of a JSON value. -/
def jsTruthy : Json → Bool
  | .null => false
  | .bool b => b
  | .num raw => !numIsZero raw
  | .str s => !s.isEmpty
  | .arr _ => true
  | .obj _ => true

mutual

/-- JS ToString of a JSON value (for `assistantContent += content`).
The string case is exact; numbers are approximated by their literal text
(exact for canonically written literals); arrays and objects follow
Array.prototype.toString / "[object Object]". -/
def jsToStr : Json → List Char
  | .null => "null".toList
  | .bool b => if b then "true".toList else "false".toList
  | .num raw => raw
  | .str s => s
  | .obj _ => "[object Object]".toList
  | .arr xs => jsArrStr xs

/-- Array.prototype.toString: elements joined by commas. -/
def jsArrStr : JsonList → List Char
  | .nil => []
  | .cons v .nil => jsElemStr v
  | .cons v vs => jsElemStr v ++ ',' :: jsArrStr vs

/-- An array element inside a join: null renders as the empty string,
other values as their ToString. -/
def jsElemStr : Json → List Char
  | .null => []
  | .bool b => if b then "true".toList else "false".toList
  | .num raw => raw
  | .str s => s
  | .obj _ => "[object Object]".toList
  | .arr xs => jsArrStr xs

end

/-! ### The line-processing state machine (streamChat, lines 45-91) -/

/-- What processing one extracted line does (lines 61-89 of the source):
skip it, set streamDone, requeue it, or append a content delta. -/
inductive LineAct where
  | skip
  | done
  | requeue
  | emit (d : List Char)
deriving DecidableEq

/-- Decision taken for one extracted line, transcribing lines 61-89:
strip one trailing CR; skip comments/blank lines and lines without the
"data: " prefix; recognise the [DONE] sentinel; otherwise JSON.parse the
payload and extract choices?.[0]?.delta?.content, requeueing on a parse
(or null-access) failure and emitting the delta only when truthy. -/
def classifyLine (line0 : List Char) : LineAct :=
  let line := stripCR line0
  if startsWithColon line || (trim line).isEmpty then .skip
  else if !startsWithData line then .skip
  else
    let jsonStr := trim (line.drop 6)
    if jsonStr = doneLit then .done
    else
      match parsePayload jsonStr with
      | none => .requeue
      | some parsed =>
        match extractContent parsed with
        | .error _ => .requeue
        | .ok c? =>
          match c? with
          | some v => if jsTruthy v then .emit (jsToStr v) else .skip
          | none => .skip

/-- The setMessages updater (lines 76-84): replace the trailing
assistant message's content when the last entry is an assistant message
and the transcript holds more than one entry, else append a new
assistant message.  (The source's map over indices replacing index
length-1 equals dropLast ++ [updated last]; the replaced entry keeps its
assistant role, so it equals an assistant message with the new content.) -/
def updateMessages (assistantContent : List Char) (prev : List Msg) : List Msg :=
  if (match prev.getLast? with
      | some m => m.role == Role.assistant
      | none => false) && decide (1 < prev.length) then
    prev.dropLast ++ [⟨Role.assistant, assistantContent⟩]
  else
    prev ++ [⟨Role.assistant, assistantContent⟩]

/-- Decoder state of one streamChat invocation (lines 47-49), together
with the transcript store mutated via setMessages. -/
structure St where
  textBuffer : List Char
  streamDone : Bool
  assistantContent : List Char
  messages : List Msg
deriving DecidableEq

/-- The inner line-extraction loop (lines 56-90), fuel-indexed: extract
complete lines while a newline exists; skip lines continue the loop, the
sentinel sets streamDone and breaks, a parse failure requeues the
CR-stripped line plus newline at the front of the buffer and breaks, a
content delta extends assistantContent and updates the transcript.  One
unit of fuel per extracted line; since each extraction consumes at least
the line's newline, buffer length is always sufficient fuel. -/
def drain : Nat → St → St
  | 0, s => s
  | fuel + 1, s =>
    match splitAtNewline s.textBuffer with
    | none => s
    | some (line0, rest) =>
      match classifyLine line0 with
      | .skip => drain fuel { s with textBuffer := rest }
      | .done => { s with textBuffer := rest, streamDone := true }
      | .requeue => { s with textBuffer := stripCR line0 ++ '\n' :: rest }
      | .emit d =>
        let ac := s.assistantContent ++ d
        drain fuel
          { s with
            textBuffer := rest
            assistantContent := ac
            messages := updateMessages ac s.messages }

/-- One iteration of the outer read loop after a chunk arrives (lines
52-90): append the decoded chunk to textBuffer and run line extraction. -/
def feedChunk (s : St) (chunk : List Char) : St :=
  let buf := s.textBuffer ++ chunk
  drain buf.length { s with textBuffer := buf }

/-- The outer read loop (lines 51-91) over a list of delivered chunks:
streamDone is checked before each read, and reading past the last chunk
reports done and breaks. -/
def runChunks : St → List (List Char) → St
  | s, [] => s
  | s, c :: cs => if s.streamDone then s else runChunks (feedChunk s c) cs

/-- Initial decoder state of streamChat (lines 47-49), over the
transcript store as it stands when streaming begins. -/
def initSt (msgs : List Msg) : St :=
  { textBuffer := [], streamDone := false, assistantContent := [], messages := msgs }

/-! ### Handshake, read failures and handleSend (lines 31-43, 94-113) -/

/-- Error kinds of one send: the pre-read handshake failure
(`throw new Error("Failed to start stream")`) or a rejected
reader.read() mid-stream. -/
inductive ChatErr where
  | streamStart
  | readFail
deriving DecidableEq

/-- The fetch response as the assembler observes it: handshake status,
body availability, the chunks delivered before the stream ends, and
whether the read after the last delivered chunk rejects instead of
reporting done. -/
structure Resp where
  ok : Bool
  hasBody : Bool
  chunks : List (List Char)
  readFails : Bool

/-- The outer read loop with failure: an error carries the transcript
store as it stands when the error is thrown (setMessages updates already
applied are not rolled back).  When streamDone is set, the loop exits
before reading, so a pending read failure is never observed. -/
def runChunksE (s : St) : List (List Char) → Bool → Except (ChatErr × List Msg) St
  | [], fail =>
    if s.streamDone then .ok s
    else if fail then .error (.readFail, s.messages)
    else .ok s
  | c :: cs, fail => if s.streamDone then .ok s else runChunksE (feedChunk s c) cs fail

/-- streamChat (lines 31-92): throw before any read when the handshake
response is not ok or has no body, else run the read loop. -/
def streamChatRun (resp : Resp) (msgs : List Msg) : Except (ChatErr × List Msg) St :=
  if resp.ok && resp.hasBody then runChunksE (initSt msgs) resp.chunks resp.readFails
  else .error (.streamStart, msgs)

/-- The UI state touched by handleSend. -/
structure UiState where
  messages : List Msg
  input : List Char
  isLoading : Bool
deriving DecidableEq

/-- The fixed fallback assistant message appended by the catch block. -/
def fallbackMsg : Msg :=
  ⟨Role.assistant, "Sorry, I encountered an error. Please try again.".toList⟩

/-- handleSend (lines 94-113): guard on blank input or a send in flight;
append the user message, clear the input, set the busy flag, stream, and
on any thrown error append the fallback assistant message; finally reset
the busy flag. -/
def handleSend (ui : UiState) (resp : Resp) : UiState :=
  if (trim ui.input).isEmpty || ui.isLoading then ui
  else
    let userMsg : Msg := ⟨Role.user, ui.input⟩
    let msgs1 := ui.messages ++ [userMsg]
    match streamChatRun resp msgs1 with
    | .ok st => ⟨st.messages, [], false⟩
    | .error e => ⟨e.2 ++ [fallbackMsg], [], false⟩

/-! ### Line-level reference semantics (for chunk-boundary invariance) -/

/-- The text of a list of newline-terminated lines. -/
def linesText : List (List Char) → List Char
  | [] => []
  | l :: L => l ++ '\n' :: linesText L

/-- Result of processing a list of complete lines. -/
structure ExecRes where
  ac : List Char
  msgs : List Msg
  done : Bool
  rem : List (List Char)
deriving DecidableEq

/-- Process a list of complete lines at the line level: skips continue,
the sentinel stops (returning the unprocessed remainder), deltas extend
the content and the transcript; a requeue line stops with itself still
pending (well-formed streams exclude this case). -/
def specExec : List Char → List Msg → List (List Char) → ExecRes
  | ac, msgs, [] => ⟨ac, msgs, false, []⟩
  | ac, msgs, l :: L =>
    match classifyLine l with
    | .skip => specExec ac msgs L
    | .done => ⟨ac, msgs, true, L⟩
    | .requeue => ⟨ac, msgs, false, l :: L⟩
    | .emit d => specExec (ac ++ d) (updateMessages (ac ++ d) msgs) L

/-- Split a text into its complete lines and the trailing partial line. -/
def toLines : List Char → List (List Char) × List Char
  | [] => ([], [])
  | c :: cs =>
    let r := toLines cs
    if c = '\n' then ([] :: r.1, r.2)
    else
      match r with
      | (l :: ls, p) => ((c :: l) :: ls, p)
      | ([], p) => ([], c :: p)

/-- A line the assembler consumes without requeueing. -/
def lineWF (l : List Char) : Prop :=
  '\n' ∉ l ∧ classifyLine l ≠ LineAct.requeue

instance (l : List Char) : Decidable (lineWF l) := by
  unfold lineWF
  infer_instance

/-- The invariant textBuffer actually satisfies at a suspension point:
either no newline is buffered, or the buffer begins with an
intentionally requeued line whose classification is requeue. -/
def bufferInv (b : List Char) : Prop :=
  '\n' ∉ b ∨
    ∃ l r, b = l ++ '\n' :: r ∧ '\n' ∉ l ∧ classifyLine l = LineAct.requeue

/-- The transcript store extends its snapshot at stream start: it is
either untouched or the snapshot is a prefix of all entries but the
in-progress last one (so no earlier entry is ever dropped or edited). -/
def transcriptSafe (base cur : List Msg) : Prop :=
  cur = base ∨ base <+: cur.dropLast

/-- The transcript store as observed at the end of a send, whether the
stream completed or threw. -/
def msgsOf : Except (ChatErr × List Msg) St → List Msg
  | .ok st => st.messages
  | .error e => e.2

/-- Scenario line: first content delta of the Hello scenario. -/
def exLineHel : List Char :=
  "data: \x7b\"choices\":[\x7b\"delta\":\x7b\"content\":\"Hel\"\x7d\x7d]\x7d".toList

/-- Scenario line: second content delta of the Hello scenario. -/
def exLineLo : List Char :=
  "data: \x7b\"choices\":[\x7b\"delta\":\x7b\"content\":\"lo\"\x7d\x7d]\x7d".toList

/-- Scenario line: the termination sentinel. -/
def exLineDone : List Char := "data: [DONE]".toList

/-- Scenario line: a well-formed delta line with content "Hi". -/
def exLineHi : List Char :=
  "data: \x7b\"choices\":[\x7b\"delta\":\x7b\"content\":\"Hi\"\x7d\x7d]\x7d".toList

/-! ### Basic lemmas about line splitting -/

theorem takeWhile_newline {l : List Char} (r : List Char) (h : '\n' ∉ l) :
    (l ++ '\n' :: r).takeWhile (fun c => c != '\n') = l := by
  induction l with
  | nil => simp [List.takeWhile_cons]
  | cons c t ih =>
    have hc : (c != '\n') = true := by
      simp only [bne_iff_ne, ne_eq]
      intro hh
      exact h (hh ▸ List.mem_cons_self c t)
    have ht : '\n' ∉ t := fun hm => h (List.mem_cons_of_mem c hm)
    simp [List.takeWhile_cons, hc, ih ht]

theorem dropWhile_newline {l : List Char} (r : List Char) (h : '\n' ∉ l) :
    (l ++ '\n' :: r).dropWhile (fun c => c != '\n') = '\n' :: r := by
  induction l with
  | nil => simp [List.dropWhile_cons]
  | cons c t ih =>
    have hc : (c != '\n') = true := by
      simp only [bne_iff_ne, ne_eq]
      intro hh
      exact h (hh ▸ List.mem_cons_self c t)
    have ht : '\n' ∉ t := fun hm => h (List.mem_cons_of_mem c hm)
    simp [List.dropWhile_cons, hc, ih ht]

theorem splitAtNewline_append {l : List Char} (r : List Char) (h : '\n' ∉ l) :
    splitAtNewline (l ++ '\n' :: r) = some (l, r) := by
  unfold splitAtNewline
  rw [if_pos (List.mem_append_right l (List.mem_cons_self '\n' r))]
  rw [takeWhile_newline r h, dropWhile_newline r h]
  rfl

theorem splitAtNewline_none {cs : List Char} (h : '\n' ∉ cs) :
    splitAtNewline cs = none := by
  unfold splitAtNewline
  exact if_neg h

theorem splitAtNewline_sound {cs l r : List Char}
    (h : splitAtNewline cs = some (l, r)) :
    cs = l ++ '\n' :: r ∧ '\n' ∉ l := by
  by_cases hm : '\n' ∈ cs
  · have hdec : cs = cs.takeWhile (fun c => c != '\n') ++ '\n' ::
        (cs.dropWhile (fun c => c != '\n')).tail ∧
        '\n' ∉ cs.takeWhile (fun c => c != '\n') := by
      clear h
      induction cs with
      | nil => cases hm
      | cons c t ih =>
        by_cases hc : c = '\n'
        · subst hc
          simp [List.takeWhile_cons, List.dropWhile_cons]
        · have hb : (c != '\n') = true := by simpa using hc
          have hmt : '\n' ∈ t := by
            rcases List.mem_cons.mp hm with h1 | h1
            · exact absurd h1.symm hc
            · exact h1
          rcases ih hmt with ⟨ih1, ih2⟩
          constructor
          · simp only [List.takeWhile_cons, hb, if_true, List.dropWhile_cons, List.cons_append]
            exact congrArg (c :: ·) ih1
          · simp only [List.takeWhile_cons, hb, if_true]
            intro hmem
            rcases List.mem_cons.mp hmem with h1 | h1
            · exact hc h1.symm
            · exact ih2 h1
    unfold splitAtNewline at h
    rw [if_pos hm] at h
    have hl : cs.takeWhile (fun c => c != '\n') = l := congrArg Prod.fst (Option.some.inj h)
    have hr : (cs.dropWhile (fun c => c != '\n')).tail = r := congrArg Prod.snd (Option.some.inj h)
    rw [hl, hr] at hdec
    exact hdec
  · rw [splitAtNewline_none hm] at h
    cases h

/-! ### Basic lemmas about drain and runChunks -/

theorem drain_no_newline {s : St} (fuel : Nat) (h : '\n' ∉ s.textBuffer) :
    drain fuel s = s := by
  cases fuel with
  | zero => rfl
  | succ f =>
    unfold drain
    rw [splitAtNewline_none h]

theorem drain_step_skip {s : St} {l r : List Char} (fuel : Nat)
    (hs : splitAtNewline s.textBuffer = some (l, r))
    (hc : classifyLine l = LineAct.skip) :
    drain (fuel + 1) s = drain fuel { s with textBuffer := r } := by
  simp only [drain, hs, hc]

theorem drain_step_done {s : St} {l r : List Char} (fuel : Nat)
    (hs : splitAtNewline s.textBuffer = some (l, r))
    (hc : classifyLine l = LineAct.done) :
    drain (fuel + 1) s = { s with textBuffer := r, streamDone := true } := by
  simp only [drain, hs, hc]

theorem drain_step_requeue {s : St} {l r : List Char} (fuel : Nat)
    (hs : splitAtNewline s.textBuffer = some (l, r))
    (hc : classifyLine l = LineAct.requeue) :
    drain (fuel + 1) s = { s with textBuffer := stripCR l ++ '\n' :: r } := by
  simp only [drain, hs, hc]

theorem drain_step_emit {s : St} {l r d : List Char} (fuel : Nat)
    (hs : splitAtNewline s.textBuffer = some (l, r))
    (hc : classifyLine l = LineAct.emit d) :
    drain (fuel + 1) s = drain fuel
      { s with
        textBuffer := r
        assistantContent := s.assistantContent ++ d
        messages := updateMessages (s.assistantContent ++ d) s.messages } := by
  simp only [drain, hs, hc]

theorem runChunks_done {s : St} (cs : List (List Char)) (h : s.streamDone = true) :
    runChunks s cs = s := by
  cases cs with
  | nil => rfl
  | cons c cs =>
    unfold runChunks
    rw [h]
    simp

theorem runChunks_mk_true (tb ac : List Char) (ms : List Msg) (cs : List (List Char)) :
    runChunks ⟨tb, true, ac, ms⟩ cs = ⟨tb, true, ac, ms⟩ :=
  runChunks_done cs rfl

theorem runChunks_step {s : St} (c : List Char) (cs : List (List Char))
    (h : s.streamDone = false) :
    runChunks s (c :: cs) = runChunks (feedChunk s c) cs := by
  conv_lhs => unfold runChunks
  rw [h]
  simp

/-! ### Lemmas about linesText and toLines -/

theorem newline_mem_linesText (l : List Char) (L : List (List Char)) :
    '\n' ∈ linesText (l :: L) := by
  unfold linesText
  exact List.mem_append_right l (List.mem_cons_self '\n' _)

theorem linesText_eq_nil {K : List (List Char)} {p : List Char}
    (hp : '\n' ∉ p) (h : '\n' ∉ linesText K ++ p) : K = [] := by
  cases K with
  | nil => rfl
  | cons l L =>
    exact absurd (List.mem_append_left p (newline_mem_linesText l L)) h

theorem length_le_linesText (K : List (List Char)) :
    K.length ≤ (linesText K).length := by
  induction K with
  | nil => simp [linesText]
  | cons l L ih =>
    unfold linesText
    simp only [List.length_append, List.length_cons]
    omega

theorem linesText_append (K₁ K₂ : List (List Char)) :
    linesText (K₁ ++ K₂) = linesText K₁ ++ linesText K₂ := by
  induction K₁ with
  | nil => simp [linesText]
  | cons l L ih => simp [linesText, ih]

theorem toLines_spec (t : List Char) :
    t = linesText (toLines t).1 ++ (toLines t).2 ∧
    (∀ l ∈ (toLines t).1, '\n' ∉ l) ∧ '\n' ∉ (toLines t).2 := by
  induction t with
  | nil => simp [toLines, linesText]
  | cons c cs ih =>
    rcases ih with ⟨ih1, ih2, ih3⟩
    by_cases hc : c = '\n'
    · subst hc
      unfold toLines
      simp only [if_pos rfl, linesText]
      refine ⟨by simpa using ih1, ?_, ih3⟩
      intro l hl
      rcases List.mem_cons.mp hl with h1 | h1
      · subst h1; simp
      · exact ih2 l h1
    · unfold toLines
      rw [if_neg hc]
      match hr : toLines cs with
      | (l :: ls, p) =>
        rw [hr] at ih1 ih2 ih3
        simp only [linesText] at ih1 ⊢
        refine ⟨by simp [ih1], ?_, ih3⟩
        intro l' hl'
        rcases List.mem_cons.mp hl' with h1 | h1
        · subst h1
          intro hm
          rcases List.mem_cons.mp hm with h2 | h2
          · exact hc h2.symm
          · exact ih2 l (List.mem_cons_self l ls) h2
        · exact ih2 l' (List.mem_cons_of_mem l h1)
      | ([], p) =>
        rw [hr] at ih1 ih2 ih3
        simp only [linesText, List.nil_append] at ih1 ⊢
        refine ⟨by simp [ih1], by simp, ?_⟩
        intro hm
        rcases List.mem_cons.mp hm with h2 | h2
        · exact hc h2.symm
        · exact ih3 h2

theorem first_line_unique {a b t u : List Char}
    (ha : '\n' ∉ a) (hb : '\n' ∉ b)
    (h : a ++ '\n' :: t = b ++ '\n' :: u) : a = b ∧ t = u := by
  induction a generalizing b with
  | nil =>
    cases b with
    | nil => simpa using h
    | cons x xs =>
      simp only [List.nil_append, List.cons_append, List.cons.injEq] at h
      exact absurd (h.1 ▸ List.mem_cons_self x xs) hb
  | cons y ys ih =>
    cases b with
    | nil =>
      simp only [List.cons_append, List.nil_append, List.cons.injEq] at h
      exact absurd (h.1.symm ▸ List.mem_cons_self y ys) ha
    | cons x xs =>
      simp only [List.cons_append, List.cons.injEq] at h
      have ha' : '\n' ∉ ys := fun hm => ha (List.mem_cons_of_mem y hm)
      have hb' : '\n' ∉ xs := fun hm => hb (List.mem_cons_of_mem x hm)
      rcases ih ha' hb' h.2 with ⟨h1, h2⟩
      exact ⟨by rw [h.1, h1], h2⟩

theorem lines_align {K₁ K : List (List Char)} {w p' : List Char}
    (h₁ : ∀ l ∈ K₁, '\n' ∉ l) (h₂ : ∀ l ∈ K, '\n' ∉ l) (hp : '\n' ∉ p')
    (h : linesText K₁ ++ w = linesText K ++ p') :
    ∃ K₂, K = K₁ ++ K₂ ∧ w = linesText K₂ ++ p' := by
  induction K₁ generalizing K with
  | nil =>
    exact ⟨K, rfl, by simpa [linesText] using h⟩
  | cons a K₁' ih =>
    cases K with
    | nil =>
      simp only [linesText, List.nil_append, List.append_assoc, List.cons_append] at h
      have : '\n' ∈ p' := by
        rw [← h]
        exact List.mem_append_right a (List.mem_cons_self '\n' _)
      exact absurd this hp
    | cons b K' =>
      simp only [linesText, List.append_assoc, List.cons_append] at h
      have hna : '\n' ∉ a := h₁ a (List.mem_cons_self a K₁')
      have hnb : '\n' ∉ b := h₂ b (List.mem_cons_self b K')
      rcases first_line_unique hna hnb h with ⟨hab, htail⟩
      have h₁' : ∀ l ∈ K₁', '\n' ∉ l := fun l hl => h₁ l (List.mem_cons_of_mem a hl)
      have h₂' : ∀ l ∈ K', '\n' ∉ l := fun l hl => h₂ l (List.mem_cons_of_mem b hl)
      rcases ih h₁' h₂' (by simpa [List.append_assoc] using htail) with ⟨K₂, hK, hw⟩
      exact ⟨K₂, by rw [hab, hK]; rfl, hw⟩

/-! ### Composition lemmas for specExec -/

theorem specExec_append_not_done {K₁ : List (List Char)} (K₂ : List (List Char))
    (ac : List Char) (msgs : List Msg)
    (hd : (specExec ac msgs K₁).done = false)
    (hr : (specExec ac msgs K₁).rem = []) :
    specExec ac msgs (K₁ ++ K₂) =
      specExec (specExec ac msgs K₁).ac (specExec ac msgs K₁).msgs K₂ := by
  induction K₁ generalizing ac msgs with
  | nil => simp [specExec]
  | cons l K₁' ih =>
    match hcl : classifyLine l with
    | .skip =>
      simp only [specExec, hcl] at hd hr ⊢
      exact ih ac msgs hd hr
    | .done =>
      simp [specExec, hcl] at hd
    | .requeue =>
      simp [specExec, hcl] at hr
    | .emit d =>
      simp only [specExec, hcl] at hd hr ⊢
      exact ih _ _ hd hr

theorem specExec_append_done {K₁ : List (List Char)} (K₂ : List (List Char))
    (ac : List Char) (msgs : List Msg)
    (hd : (specExec ac msgs K₁).done = true) :
    (specExec ac msgs (K₁ ++ K₂)).ac = (specExec ac msgs K₁).ac ∧
    (specExec ac msgs (K₁ ++ K₂)).msgs = (specExec ac msgs K₁).msgs ∧
    (specExec ac msgs (K₁ ++ K₂)).done = true := by
  induction K₁ generalizing ac msgs with
  | nil => simp [specExec] at hd
  | cons l K₁' ih =>
    match hcl : classifyLine l with
    | .skip =>
      simp only [specExec, hcl] at hd ⊢
      exact ih ac msgs hd
    | .done =>
      simp [specExec, hcl]
    | .requeue =>
      simp [specExec, hcl] at hd
    | .emit d =>
      simp only [specExec, hcl] at hd ⊢
      exact ih _ _ hd

theorem specExec_wf_rem {K : List (List Char)} (ac : List Char) (msgs : List Msg)
    (hwf : ∀ l ∈ K, classifyLine l ≠ LineAct.requeue)
    (hd : (specExec ac msgs K).done = false) :
    (specExec ac msgs K).rem = [] := by
  induction K generalizing ac msgs with
  | nil => simp [specExec]
  | cons l K' ih =>
    have hwf' : ∀ l' ∈ K', classifyLine l' ≠ LineAct.requeue :=
      fun l' hl' => hwf l' (List.mem_cons_of_mem l hl')
    match hcl : classifyLine l with
    | .skip =>
      simp only [specExec, hcl] at hd ⊢
      exact ih ac msgs hwf' hd
    | .done =>
      simp [specExec, hcl] at hd
    | .requeue =>
      exact absurd hcl (hwf l (List.mem_cons_self l K'))
    | .emit d =>
      simp only [specExec, hcl] at hd ⊢
      exact ih _ _ hwf' hd

/-! ### The inner loop processes exactly the complete lines in the buffer -/

theorem drain_lines {K : List (List Char)} {p : List Char} {fuel : Nat} {s : St}
    (hwf : ∀ l ∈ K, lineWF l) (hp : '\n' ∉ p) (hsd : s.streamDone = false)
    (hfuel : K.length ≤ fuel) (hbuf : s.textBuffer = linesText K ++ p) :
    drain fuel s =
      { textBuffer := linesText (specExec s.assistantContent s.messages K).rem ++ p,
        streamDone := (specExec s.assistantContent s.messages K).done,
        assistantContent := (specExec s.assistantContent s.messages K).ac,
        messages := (specExec s.assistantContent s.messages K).msgs } := by
  induction K generalizing fuel s with
  | nil =>
    simp only [specExec, linesText, List.nil_append]
    simp only [linesText, List.nil_append] at hbuf
    rw [drain_no_newline fuel (hbuf ▸ hp)]
    cases s
    simp_all
  | cons l K' ih =>
    cases fuel with
    | zero => simp at hfuel
    | succ f =>
      have hwl : lineWF l := hwf l (List.mem_cons_self l K')
      have hwf' : ∀ l' ∈ K', lineWF l' := fun l' hl' => hwf l' (List.mem_cons_of_mem l hl')
      have hbuf' : s.textBuffer = l ++ '\n' :: (linesText K' ++ p) := by
        rw [hbuf]; simp [linesText]
      have hsplit : splitAtNewline s.textBuffer = some (l, linesText K' ++ p) := by
        rw [hbuf']
        exact splitAtNewline_append _ hwl.1
      have hfuel' : K'.length ≤ f := by simpa using hfuel
      match hcl : classifyLine l with
      | .skip =>
        rw [drain_step_skip f hsplit hcl]
        simp only [specExec, hcl]
        exact ih hwf' hsd hfuel' rfl
      | .done =>
        rw [drain_step_done f hsplit hcl]
        simp only [specExec, hcl]
      | .requeue =>
        exact absurd hcl hwl.2
      | .emit d =>
        rw [drain_step_emit f hsplit hcl]
        simp only [specExec, hcl]
        exact ih hwf' hsd hfuel' rfl

/-! ### The outer loop computes the line-level semantics, however chunked -/

theorem runChunks_wf {cs : List (List Char)} {s : St} {K : List (List Char)} {p' : List Char}
    (hsd : s.streamDone = false) (hnb : '\n' ∉ s.textBuffer)
    (hwf : ∀ l ∈ K, lineWF l) (hp : '\n' ∉ p')
    (heq : s.textBuffer ++ cs.flatten = linesText K ++ p') :
    (runChunks s cs).assistantContent = (specExec s.assistantContent s.messages K).ac ∧
    (runChunks s cs).messages = (specExec s.assistantContent s.messages K).msgs := by
  induction cs generalizing s K with
  | nil =>
    have heq' : s.textBuffer = linesText K ++ p' := by simpa using heq
    have hK : K = [] := linesText_eq_nil hp (heq' ▸ hnb)
    subst hK
    simp [runChunks, specExec]
  | cons c cs' ih =>
    have hrun : runChunks s (c :: cs') = runChunks (feedChunk s c) cs' :=
      runChunks_step c cs' hsd
    rcases toLines_spec (s.textBuffer ++ c) with ⟨hbuf, hK₁nl, hqnl⟩
    have heq' :
        linesText (toLines (s.textBuffer ++ c)).1 ++
          ((toLines (s.textBuffer ++ c)).2 ++ cs'.flatten) = linesText K ++ p' := by
      rw [← List.append_assoc, ← hbuf]
      simpa [List.append_assoc] using heq
    rcases lines_align hK₁nl (fun l hl => (hwf l hl).1) hp heq' with ⟨K₂, hK, hw⟩
    have hwf₁ : ∀ l ∈ (toLines (s.textBuffer ++ c)).1, lineWF l := by
      intro l hl
      exact hwf l (hK ▸ List.mem_append_left K₂ hl)
    have hwf₂ : ∀ l ∈ K₂, lineWF l := by
      intro l hl
      exact hwf l (hK ▸ List.mem_append_right _ hl)
    have hfeed : feedChunk s c =
        { textBuffer :=
            linesText (specExec s.assistantContent s.messages
              (toLines (s.textBuffer ++ c)).1).rem ++ (toLines (s.textBuffer ++ c)).2,
          streamDone := (specExec s.assistantContent s.messages
            (toLines (s.textBuffer ++ c)).1).done,
          assistantContent := (specExec s.assistantContent s.messages
            (toLines (s.textBuffer ++ c)).1).ac,
          messages := (specExec s.assistantContent s.messages
            (toLines (s.textBuffer ++ c)).1).msgs } := by
      unfold feedChunk
      refine drain_lines hwf₁ hqnl hsd ?_ hbuf
      calc (toLines (s.textBuffer ++ c)).1.length
          ≤ (linesText (toLines (s.textBuffer ++ c)).1).length := length_le_linesText _
        _ ≤ (linesText (toLines (s.textBuffer ++ c)).1 ++
              (toLines (s.textBuffer ++ c)).2).length := by
            simp
        _ = (s.textBuffer ++ c).length := by rw [← hbuf]
    rw [hrun, hfeed]
    match hdone : (specExec s.assistantContent s.messages (toLines (s.textBuffer ++ c)).1).done with
    | true =>
      rw [runChunks_mk_true]
      rcases specExec_append_done K₂ s.assistantContent s.messages hdone with ⟨ha, hm, _⟩
      rw [hK]
      exact ⟨ha.symm, hm.symm⟩
    | false =>
      have hrem : (specExec s.assistantContent s.messages (toLines (s.textBuffer ++ c)).1).rem
          = [] := specExec_wf_rem _ _ (fun l hl => (hwf₁ l hl).2) hdone
      rw [hrem]
      simp only [linesText, List.nil_append]
      have hstep := @ih ⟨(toLines (s.textBuffer ++ c)).2, false,
          (specExec s.assistantContent s.messages (toLines (s.textBuffer ++ c)).1).ac,
          (specExec s.assistantContent s.messages (toLines (s.textBuffer ++ c)).1).msgs⟩
          K₂ rfl hqnl hwf₂ hw
      rw [hK, specExec_append_not_done K₂ s.assistantContent s.messages hdone hrem]
      exact hstep

/-! ### Lemmas about trim, stripCR and classifyLine -/

theorem mem_dropWhile_of_not {p : Char → Bool} {c : Char} {l : List Char}
    (hm : c ∈ l) (hp : p c = false) : c ∈ l.dropWhile p := by
  induction l with
  | nil => cases hm
  | cons x xs ih =>
    rw [List.dropWhile_cons]
    by_cases hx : p x = true
    · rw [if_pos hx]
      rcases List.mem_cons.mp hm with h1 | h1
      · rw [h1] at hp; rw [hp] at hx; cases hx
      · exact ih h1
    · rw [if_neg hx]
      exact hm

theorem mem_trim {c : Char} {cs : List Char} (hm : c ∈ cs) (hp : isJsWS c = false) :
    c ∈ trim cs := by
  unfold trim trimLeft trimRight
  refine mem_dropWhile_of_not ?_ hp
  rw [List.mem_reverse]
  exact mem_dropWhile_of_not (List.mem_reverse.mpr hm) hp

theorem trim_ne_nil {c : Char} {cs : List Char} (hm : c ∈ cs) (hp : isJsWS c = false) :
    trim cs ≠ [] :=
  fun h => absurd (h ▸ mem_trim hm hp) (List.not_mem_nil c)

theorem trim_append_ws {cs : List Char} {c : Char} (hc : isJsWS c = true) :
    trim (cs ++ [c]) = trim cs := by
  unfold trim trimRight
  rw [List.reverse_append]
  simp only [List.reverse_cons, List.reverse_nil, List.nil_append, List.cons_append,
    List.singleton_append]
  rw [List.dropWhile_cons, if_pos hc]

theorem stripCR_head {c : Char} {t : List Char} (hc : c ≠ '\r') :
    ∃ t', stripCR (c :: t) = c :: t' := by
  unfold stripCR
  by_cases h : (c :: t).getLast? = some '\r'
  · rw [if_pos h]
    cases t with
    | nil =>
      simp only [List.getLast?_singleton, Option.some.injEq] at h
      exact absurd h hc
    | cons x xs =>
      exact ⟨(x :: xs).dropLast, by simp⟩
  · rw [if_neg h]
    exact ⟨t, rfl⟩

theorem stripCR_sub {c : Char} {l : List Char} (h : c ∈ stripCR l) : c ∈ l := by
  unfold stripCR at h
  by_cases hl : l.getLast? = some '\r'
  · rw [if_pos hl] at h
    exact (List.dropLast_sublist l).subset h
  · rwa [if_neg hl] at h

theorem data_shape {cs : List Char} (h : startsWithData cs = true) :
    ∃ t, cs = "data: ".toList ++ t := by
  unfold startsWithData at h
  rcases List.isPrefixOf_iff_prefix.mp h with ⟨t, ht⟩
  exact ⟨t, ht.symm⟩

/-- When the (CR-stripped) line carries the `data: ` prefix, the
comment/blank guards do not fire and classification is decided by the
sentinel test and the payload parse. -/
theorem classifyLine_data {l : List Char} (hd : startsWithData (stripCR l) = true) :
    classifyLine l =
      (if trim ((stripCR l).drop 6) = doneLit then LineAct.done
       else
         match parsePayload (trim ((stripCR l).drop 6)) with
         | none => LineAct.requeue
         | some parsed =>
           match extractContent parsed with
           | .error _ => LineAct.requeue
           | .ok c? =>
             match c? with
             | some v => if jsTruthy v then LineAct.emit (jsToStr v) else LineAct.skip
             | none => LineAct.skip) := by
  rcases data_shape hd with ⟨t, ht⟩
  have hcolon : startsWithColon (stripCR l) = false := by
    rw [ht]; rfl
  have hmemd : 'd' ∈ stripCR l := by
    rw [ht]; exact List.mem_append_left _ (by simp)
  have hblank : (trim (stripCR l)).isEmpty = false := by
    have hne : trim (stripCR l) ≠ [] := trim_ne_nil hmemd (by rfl)
    cases htr : trim (stripCR l) with
    | nil => exact absurd htr hne
    | cons a b => rfl
  simp only [classifyLine, hcolon, hblank, hd]
  simp

/-- Facts recoverable from a requeue classification: the line is
data-prefixed, its payload is not the sentinel, and parsing or the
member access on it fails. -/
theorem classify_requeue_facts {l : List Char} (h : classifyLine l = LineAct.requeue) :
    startsWithData (stripCR l) = true ∧
    trim ((stripCR l).drop 6) ≠ doneLit ∧
    ((parsePayload (trim ((stripCR l).drop 6)) = none) ∨
      (∃ p, parsePayload (trim ((stripCR l).drop 6)) = some p ∧
        extractContent p = .error ())) := by
  have hd : startsWithData (stripCR l) = true := by
    by_contra hnd
    have hnd' : startsWithData (stripCR l) = false := by
      cases hh : startsWithData (stripCR l)
      · rfl
      · exact absurd hh hnd
    simp only [classifyLine, hnd'] at h
    simp at h
  refine ⟨hd, ?_⟩
  rw [classifyLine_data hd] at h
  by_cases h1 : trim ((stripCR l).drop 6) = doneLit
  · rw [if_pos h1] at h; cases h
  · rw [if_neg h1] at h
    refine ⟨h1, ?_⟩
    match hp : parsePayload (trim ((stripCR l).drop 6)) with
    | none => exact Or.inl rfl
    | some p =>
      simp only [hp] at h
      match he : extractContent p with
      | .error u =>
        cases u
        exact Or.inr ⟨p, rfl, he⟩
      | .ok c? =>
        simp only [he] at h
        match c? with
        | some v =>
          by_cases ht : jsTruthy v = true
          · simp [ht] at h
          · simp [ht] at h
        | none => simp at h

theorem stripCR_data {l : List Char} (hd : startsWithData l = true) :
    startsWithData (stripCR l) = true := by
  rcases data_shape hd with ⟨t, ht⟩
  subst ht
  unfold stripCR
  by_cases h : ("data: ".toList ++ t).getLast? = some '\r'
  · rw [if_pos h]
    cases t with
    | nil => simp at h
    | cons x xs =>
      unfold startsWithData
      rw [List.isPrefixOf_iff_prefix]
      have : ("data: ".toList ++ x :: xs).dropLast = "data: ".toList ++ (x :: xs).dropLast := by
        rw [List.dropLast_append_of_ne_nil]
        simp
      rw [this]
      exact List.prefix_append _ _
  · rw [if_neg h]
    unfold startsWithData at hd
    exact hd

theorem trim_drop6_stripCR {l : List Char} (hd : startsWithData l = true) :
    trim ((stripCR l).drop 6) = trim (l.drop 6) := by
  rcases data_shape hd with ⟨t, ht⟩
  subst ht
  have hdl : ("data: ".toList ++ t).drop 6 = t := by simp
  unfold stripCR
  by_cases h : ("data: ".toList ++ t).getLast? = some '\r'
  · rw [if_pos h]
    cases t with
    | nil => simp at h
    | cons x xs =>
      have h1 : ("data: ".toList ++ x :: xs).dropLast = "data: ".toList ++ (x :: xs).dropLast := by
        rw [List.dropLast_append_of_ne_nil]
        simp
      have h2 : ("data: ".toList ++ x :: xs).getLast? = (x :: xs).getLast? := by
        rw [List.getLast?_append_of_ne_nil]
        simp
      rw [h2] at h
      have h3 : x :: xs = (x :: xs).dropLast ++ ['\r'] := by
        conv_lhs => rw [← List.dropLast_append_getLast? '\r' (Option.mem_def.mpr h)]
      have h5 : ("data: ".toList ++ (x :: xs).dropLast).drop 6 = (x :: xs).dropLast := by simp
      rw [h1, h5, hdl]
      conv_rhs => rw [h3]
      rw [trim_append_ws (by rfl)]
  · rw [if_neg h]

theorem classify_requeue_strip {l : List Char} (h : classifyLine l = LineAct.requeue) :
    classifyLine (stripCR l) = LineAct.requeue := by
  rcases classify_requeue_facts h with ⟨hd, hnd, hfail⟩
  have hd2 : startsWithData (stripCR (stripCR l)) = true := stripCR_data hd
  have heq : trim ((stripCR (stripCR l)).drop 6) = trim ((stripCR l).drop 6) :=
    trim_drop6_stripCR hd
  rw [classifyLine_data hd2, heq, if_neg hnd]
  rcases hfail with hnone | ⟨p, hp, he⟩
  · simp [hnone]
  · simp [hp, he]

/-! ### A requeued line pins the buffer and blocks all later content -/

theorem drain_requeue_head {s : St} {l rest : List Char}
    (hbuf : s.textBuffer = l ++ '\n' :: rest) (hnl : '\n' ∉ l)
    (hcl : classifyLine l = LineAct.requeue) {fuel : Nat} (hf : 1 ≤ fuel) :
    drain fuel s = { s with textBuffer := stripCR l ++ '\n' :: rest } := by
  cases fuel with
  | zero => omega
  | succ f =>
    have hsplit : splitAtNewline s.textBuffer = some (l, rest) := by
      rw [hbuf]
      exact splitAtNewline_append rest hnl
    exact drain_step_requeue f hsplit hcl

theorem feedChunk_requeue (c : List Char) {s : St} {l rest : List Char}
    (hbc : s.textBuffer ++ c = l ++ '\n' :: rest) (hnl : '\n' ∉ l)
    (hcl : classifyLine l = LineAct.requeue) :
    feedChunk s c = { s with textBuffer := stripCR l ++ '\n' :: rest } := by
  unfold feedChunk
  have hlen : 1 ≤ (s.textBuffer ++ c).length := by
    have : 0 < (s.textBuffer ++ c).length := by
      rw [hbc]
      exact List.length_pos.mpr (by simp)
    omega
  exact drain_requeue_head hbc hnl hcl hlen

theorem stuck_run {cs : List (List Char)} {s : St} {l rest : List Char}
    (hbuf : s.textBuffer = l ++ '\n' :: rest) (hnl : '\n' ∉ l)
    (hcl : classifyLine l = LineAct.requeue) (hsd : s.streamDone = false) :
    (runChunks s cs).assistantContent = s.assistantContent ∧
    (runChunks s cs).messages = s.messages ∧
    (runChunks s cs).streamDone = false ∧
    ∃ l' rest', (runChunks s cs).textBuffer = l' ++ '\n' :: rest' ∧
      classifyLine l' = LineAct.requeue := by
  induction cs generalizing s l rest with
  | nil => exact ⟨rfl, rfl, hsd, l, rest, hbuf, hcl⟩
  | cons c cs' ih =>
    rw [runChunks_step c cs' hsd]
    have hbc : s.textBuffer ++ c = l ++ '\n' :: (rest ++ c) := by
      rw [hbuf]
      simp
    rw [feedChunk_requeue c hbc hnl hcl]
    exact ih rfl (fun hm => hnl (stripCR_sub hm)) (classify_requeue_strip hcl) hsd

/-! ### The buffer invariant at suspension points -/

theorem splitAtNewline_eq_none {cs : List Char} (h : splitAtNewline cs = none) :
    '\n' ∉ cs := by
  intro hm
  unfold splitAtNewline at h
  rw [if_pos hm] at h
  cases h

theorem drain_inv : ∀ (fuel : Nat) (s : St),
    s.textBuffer.count '\n' ≤ fuel →
    (drain fuel s).streamDone = false → bufferInv (drain fuel s).textBuffer
  | 0, s, hc, _ => by
    left
    have h0 : s.textBuffer.count '\n' = 0 := Nat.le_zero.mp hc
    exact List.count_eq_zero.mp h0
  | fuel + 1, s, hc, hd => by
    match hsp : splitAtNewline s.textBuffer with
    | none =>
      have heq : drain (fuel + 1) s = s := by
        unfold drain
        rw [hsp]
      rw [heq]
      exact Or.inl (splitAtNewline_eq_none hsp)
    | some (l, r) =>
      rcases splitAtNewline_sound hsp with ⟨hbuf, hnl⟩
      have hcount : r.count '\n' ≤ fuel := by
        have hcnt : s.textBuffer.count '\n' = r.count '\n' + 1 := by
          rw [hbuf, List.count_append, List.count_cons]
          simp [List.count_eq_zero.mpr hnl]
        omega
      match hcl : classifyLine l with
      | .skip =>
        rw [drain_step_skip fuel hsp hcl] at hd ⊢
        exact drain_inv fuel _ hcount hd
      | .done =>
        rw [drain_step_done fuel hsp hcl] at hd
        simp at hd
      | .requeue =>
        rw [drain_step_requeue fuel hsp hcl]
        exact Or.inr ⟨stripCR l, r, rfl, fun hm => hnl (stripCR_sub hm),
          classify_requeue_strip hcl⟩
      | .emit d =>
        rw [drain_step_emit fuel hsp hcl] at hd ⊢
        exact drain_inv fuel _ hcount hd

/-! ### Skip lemmas for comment/blank lines and contentless payloads -/

theorem classifyLine_skip_of_comment {l : List Char} (h : l = [] ∨ l.head? = some ':') :
    classifyLine l = LineAct.skip := by
  rcases h with h | h
  · subst h
    rfl
  · obtain ⟨c, t, rfl⟩ : ∃ c t, l = c :: t := by
      cases l with
      | nil => cases h
      | cons c t => exact ⟨c, t, rfl⟩
    have hc : c = ':' := by simpa using h
    subst hc
    rcases stripCR_head (show ':' ≠ '\r' by decide) (t := t) with ⟨t', ht'⟩
    simp [classifyLine, ht', startsWithColon]

theorem classifyLine_skip_of_no_content {l : List Char} {v : Json} {c? : Option Json}
    (hd : startsWithData (stripCR l) = true)
    (hnd : trim ((stripCR l).drop 6) ≠ doneLit)
    (hp : parsePayload (trim ((stripCR l).drop 6)) = some v)
    (he : extractContent v = .ok c?)
    (hf : c? = none ∨ ∃ w, c? = some w ∧ jsTruthy w = false) :
    classifyLine l = LineAct.skip := by
  rw [classifyLine_data hd, if_neg hnd]
  simp only [hp, he]
  rcases hf with hf | ⟨w, hw, ht⟩
  · simp [hf]
  · simp [hw, ht]

/-! ### Transcript-evolution lemmas for the error path -/

theorem dropLast_isPrefix (l : List Msg) : l.dropLast <+: l := by
  rw [List.dropLast_eq_take]
  exact List.take_prefix _ _

theorem updateMessages_safe {base b : List Msg} {mu : Msg} (hu : mu.role = Role.user)
    (hbase : base.getLast? = some mu) (ac : List Char)
    (h : transcriptSafe base b) : transcriptSafe base (updateMessages ac b) := by
  rcases h with rfl | h
  · right
    unfold updateMessages
    rw [hbase]
    have hroleb : (mu.role == Role.assistant) = false := by
      rw [hu]
      rfl
    simp only [hroleb, Bool.false_and, Bool.false_eq_true, if_false]
    rw [List.dropLast_concat]
  · unfold updateMessages
    by_cases hcond : ((match b.getLast? with
        | some m => m.role == Role.assistant
        | none => false) && decide (1 < b.length)) = true
    · rw [if_pos hcond]
      right
      rwa [List.dropLast_concat]
    · rw [if_neg hcond]
      right
      rw [List.dropLast_concat]
      exact h.trans (dropLast_isPrefix b)

theorem drain_safe {base : List Msg} {mu : Msg} (hu : mu.role = Role.user)
    (hbase : base.getLast? = some mu) :
    ∀ (fuel : Nat) (s : St), transcriptSafe base s.messages →
      transcriptSafe base (drain fuel s).messages
  | 0, _, h => h
  | fuel + 1, s, h => by
    match hsp : splitAtNewline s.textBuffer with
    | none =>
      have heq : drain (fuel + 1) s = s := by
        unfold drain
        rw [hsp]
      rw [heq]
      exact h
    | some (l, r) =>
      match hcl : classifyLine l with
      | .skip =>
        rw [drain_step_skip fuel hsp hcl]
        exact drain_safe hu hbase fuel _ h
      | .done =>
        rw [drain_step_done fuel hsp hcl]
        exact h
      | .requeue =>
        rw [drain_step_requeue fuel hsp hcl]
        exact h
      | .emit d =>
        rw [drain_step_emit fuel hsp hcl]
        exact drain_safe hu hbase fuel _ (updateMessages_safe hu hbase _ h)

theorem runChunksE_safe {base : List Msg} {mu : Msg} (hu : mu.role = Role.user)
    (hbase : base.getLast? = some mu) :
    ∀ (cs : List (List Char)) (fail : Bool) (s : St),
      transcriptSafe base s.messages →
      transcriptSafe base (msgsOf (runChunksE s cs fail))
  | [], fail, s, h => by
    unfold runChunksE msgsOf
    by_cases hsd : s.streamDone = true
    · rw [if_pos hsd]
      exact h
    · rw [if_neg hsd]
      cases fail with
      | true => exact h
      | false => exact h
  | c :: cs, fail, s, h => by
    unfold runChunksE
    by_cases hsd : s.streamDone = true
    · rw [if_pos hsd]
      exact h
    · rw [if_neg hsd]
      exact runChunksE_safe hu hbase cs fail (feedChunk s c)
        (drain_safe hu hbase _ _ h)

theorem transcriptSafe_length {base cur : List Msg} (h : transcriptSafe base cur) :
    base.length ≤ cur.length := by
  rcases h with rfl | h
  · exact Nat.le_refl _
  · have h1 : base.length ≤ cur.dropLast.length := h.length_le
    have h2 : cur.dropLast.length ≤ cur.length := by
      rw [List.length_dropLast]
      omega
    omega

theorem updateMessages_user_last (ac u : List Char) (ms : List Msg) :
    updateMessages ac (ms ++ [⟨Role.user, u⟩]) =
      ms ++ [⟨Role.user, u⟩] ++ [⟨Role.assistant, ac⟩] := by
  unfold updateMessages
  rw [List.getLast?_concat]
  simp

theorem updateMessages_assistant_last (ac d : List Char) (ms : List Msg) (hne : ms ≠ []) :
    updateMessages ac (ms ++ [⟨Role.assistant, d⟩]) = ms ++ [⟨Role.assistant, ac⟩] := by
  unfold updateMessages
  rw [List.getLast?_concat]
  have hlen : 1 < (ms ++ [(⟨Role.assistant, d⟩ : Msg)]).length := by
    have hpos : 0 < ms.length := List.length_pos.mpr hne
    simp only [List.length_append, List.length_cons, List.length_nil]
    omega
  simp [hlen, List.dropLast_concat, hne]

/-! ### Claim theorems -/

/-- Claim C2 (confirmed): for every well-formed stream of lines (each
complete line is consumed without requeueing) and any two ways of
splitting its text into chunks, running the assembler on either chunking
yields the identical final assembled assistant content. -/
theorem C2_chunk_invariance {msgs : List Msg} {L cs1 cs2 : List (List Char)}
    (hwf : ∀ l ∈ L, lineWF l)
    (h1 : cs1.flatten = linesText L) (h2 : cs2.flatten = linesText L) :
    (runChunks (initSt msgs) cs1).assistantContent =
      (runChunks (initSt msgs) cs2).assistantContent := by
  have r1 := runChunks_wf rfl (List.not_mem_nil '\n') hwf (List.not_mem_nil '\n')
    (show (initSt msgs).textBuffer ++ cs1.flatten = linesText L ++ [] by
      simp [initSt, h1])
  have r2 := runChunks_wf rfl (List.not_mem_nil '\n') hwf (List.not_mem_nil '\n')
    (show (initSt msgs).textBuffer ++ cs2.flatten = linesText L ++ [] by
      simp [initSt, h2])
  rw [r1.1, r2.1]

/-- Witness for C2: the Hello stream delivered whole versus split in the
middle of the first line produces the same content. -/
theorem C2_chunk_invariance_witness :
    (runChunks (initSt []) [linesText [exLineHel, exLineLo, exLineDone]]).assistantContent =
      (runChunks (initSt [])
        [(linesText [exLineHel, exLineLo, exLineDone]).take 7,
         (linesText [exLineHel, exLineLo, exLineDone]).drop 7]).assistantContent :=
  @C2_chunk_invariance [] [exLineHel, exLineLo, exLineDone]
    [linesText [exLineHel, exLineLo, exLineDone]]
    [(linesText [exLineHel, exLineLo, exLineDone]).take 7,
     (linesText [exLineHel, exLineLo, exLineDone]).drop 7]
    (by decide) (by simp) (by simp)

/-- Claim C3 (confirmed): whenever a processed line's payload is the
[DONE] sentinel (classifyLine yields done), the assembler sets
streamDone, stops line extraction with the rest of the buffered text
left unprocessed, and no data line after the sentinel — in the same
buffered text or in later chunks — ever alters assistantContent or the
transcript. -/
theorem C3_done_halts {s : St} {line rest : List Char} (cs : List (List Char)) (fuel : Nat)
    (hnl : '\n' ∉ line) (hcl : classifyLine line = LineAct.done)
    (hbuf : s.textBuffer = line ++ '\n' :: rest) :
    drain (fuel + 1) s = { s with textBuffer := rest, streamDone := true } ∧
    (runChunks (drain (fuel + 1) s) cs).assistantContent = s.assistantContent ∧
    (runChunks (drain (fuel + 1) s) cs).messages = s.messages := by
  have hsplit : splitAtNewline s.textBuffer = some (line, rest) := by
    rw [hbuf]
    exact splitAtNewline_append rest hnl
  have hstep := drain_step_done fuel hsplit hcl
  refine ⟨hstep, ?_, ?_⟩ <;> rw [hstep, runChunks_done cs rfl]

/-- Witness for C3: a DONE line followed in the same buffer by a valid
content line and by a later content chunk leaves content and transcript
untouched. -/
theorem C3_done_halts_witness :
    (runChunks (drain 20 ⟨exLineDone ++ '\n' :: (exLineHi ++ ['\n']), false, [], []⟩)
      [exLineHi ++ ['\n']]).assistantContent = [] :=
  (C3_done_halts [exLineHi ++ ['\n']] 19 (by decide) (by decide) rfl).2.1

/-- Claim C4 (confirmed): when the handshake response is not ok or has
no body, streamChat throws its start error with the transcript untouched
and without reading the stream (the result does not depend on the
delivered chunks or on read failures), and the caller appends the fixed
fallback assistant message and resets the busy flag. -/
theorem C4_handshake_failure {resp : Resp} {ui : UiState}
    (hfail : resp.ok = false ∨ resp.hasBody = false)
    (hin : (trim ui.input).isEmpty = false) (hload : ui.isLoading = false) :
    (∀ msgs, streamChatRun resp msgs = .error (ChatErr.streamStart, msgs)) ∧
    (∀ msgs cs rf, streamChatRun { resp with chunks := cs, readFails := rf } msgs =
      .error (ChatErr.streamStart, msgs)) ∧
    handleSend ui resp =
      ⟨ui.messages ++ [⟨Role.user, ui.input⟩] ++ [fallbackMsg], [], false⟩ := by
  have hcond : (resp.ok && resp.hasBody) = false := by
    rcases hfail with h | h <;> simp [h]
  have hgen : ∀ msgs, streamChatRun resp msgs = .error (ChatErr.streamStart, msgs) := by
    intro msgs
    unfold streamChatRun
    rw [hcond]
    simp
  refine ⟨hgen, ?_, ?_⟩
  · intro msgs cs rf
    unfold streamChatRun
    simp only []
    rw [show ({ resp with chunks := cs, readFails := rf } : Resp).ok = resp.ok from rfl,
      show ({ resp with chunks := cs, readFails := rf } : Resp).hasBody = resp.hasBody from rfl,
      hcond]
    simp
  · unfold handleSend
    rw [hin, hload]
    simp only [Bool.or_self, Bool.false_eq_true, if_false]
    rw [hgen]

/-- Witness for C4: a non-ok handshake makes the caller append the
fallback message. -/
theorem C4_handshake_failure_witness :
    handleSend ⟨[], "hi".toList, false⟩ ⟨false, true, [], false⟩ =
      ⟨[] ++ [⟨Role.user, "hi".toList⟩] ++ [fallbackMsg], [], false⟩ :=
  (C4_handshake_failure (Or.inl rfl) (by decide) rfl).2.2

/-- Claim C5 (confirmed): with the just-submitted user message last in
the transcript, the three lines of the Hello scenario produce exactly
one new assistant message with content "Hello". -/
theorem C5_hello_scenario (pre : List Msg) (u : List Char) :
    (runChunks (initSt (pre ++ [⟨Role.user, u⟩]))
        [exLineHel ++ ['\n'], exLineLo ++ ['\n'], exLineDone ++ ['\n']]).messages =
      pre ++ [⟨Role.user, u⟩, ⟨Role.assistant, "Hello".toList⟩] ∧
    (runChunks (initSt (pre ++ [⟨Role.user, u⟩]))
        [exLineHel ++ ['\n'], exLineLo ++ ['\n'], exLineDone ++ ['\n']]).assistantContent =
      "Hello".toList := by
  have hwf : ∀ l ∈ [exLineHel, exLineLo, exLineDone], lineWF l := by decide
  have heq : (initSt (pre ++ [⟨Role.user, u⟩])).textBuffer ++
      ([exLineHel ++ ['\n'], exLineLo ++ ['\n'], exLineDone ++ ['\n']] :
        List (List Char)).flatten =
      linesText [exLineHel, exLineLo, exLineDone] ++ [] := by
    simp [initSt, linesText]
  have hr := runChunks_wf rfl (List.not_mem_nil '\n') hwf (List.not_mem_nil '\n') heq
  have hc1 : classifyLine exLineHel = LineAct.emit "Hel".toList := by decide
  have hc2 : classifyLine exLineLo = LineAct.emit "lo".toList := by decide
  have hc3 : classifyLine exLineDone = LineAct.done := by decide
  have hspec : specExec [] (pre ++ [⟨Role.user, u⟩]) [exLineHel, exLineLo, exLineDone] =
      ⟨"Hello".toList, pre ++ [⟨Role.user, u⟩, ⟨Role.assistant, "Hello".toList⟩],
        true, []⟩ := by
    simp only [specExec, hc1, hc2, hc3, List.nil_append]
    rw [updateMessages_user_last]
    rw [updateMessages_assistant_last _ _ _ (by simp)]
    have hms : "Hel".toList ++ "lo".toList = "Hello".toList := by decide
    simp [hms, List.append_assoc]
  have hini : (initSt (pre ++ [(⟨Role.user, u⟩ : Msg)])).assistantContent = [] := rfl
  have hini2 : (initSt (pre ++ [(⟨Role.user, u⟩ : Msg)])).messages =
      pre ++ [(⟨Role.user, u⟩ : Msg)] := rfl
  rw [hini, hini2] at hr
  constructor
  · rw [hr.2, hspec]
  · rw [hr.1, hspec]

/-- Claim C6 (confirmed): an extracted line that is empty or begins with
a colon is skipped: processing continues on the rest of the buffer with
assistantContent, the transcript and all other state unchanged. -/
theorem C6_comment_skip {s : St} {l rest : List Char} (fuel : Nat)
    (hnl : '\n' ∉ l) (hcomment : l = [] ∨ l.head? = some ':')
    (hbuf : s.textBuffer = l ++ '\n' :: rest) :
    drain (fuel + 1) s = drain fuel { s with textBuffer := rest } := by
  have hsplit : splitAtNewline s.textBuffer = some (l, rest) := by
    rw [hbuf]
    exact splitAtNewline_append rest hnl
  exact drain_step_skip fuel hsplit (classifyLine_skip_of_comment hcomment)

/-- Witness for C6: a keep-alive comment line is a pure skip. -/
theorem C6_comment_skip_witness :
    drain 7 ⟨": ping".toList ++ '\n' :: [], false, [], []⟩ =
      drain 6 ⟨[], false, [], []⟩ :=
  @C6_comment_skip ⟨": ping".toList ++ '\n' :: [], false, [], []⟩ ": ping".toList [] 6
    (by decide) (Or.inr rfl) rfl

/-- Claim C7 (corrected, amended part): a data line whose payload parses
to anything other than JSON null and carries no (or an empty, or
otherwise falsy) choices[0].delta.content is consumed as a pure skip:
processing continues on the rest of the buffer with all state
unchanged. -/
theorem C7_no_content_skip {s : St} {l rest : List Char} {v : Json} {c? : Option Json}
    (fuel : Nat) (hnl : '\n' ∉ l) (hbuf : s.textBuffer = l ++ '\n' :: rest)
    (hd : startsWithData (stripCR l) = true)
    (hnd : trim ((stripCR l).drop 6) ≠ doneLit)
    (hp : parsePayload (trim ((stripCR l).drop 6)) = some v)
    (he : extractContent v = .ok c?)
    (hf : c? = none ∨ ∃ w, c? = some w ∧ jsTruthy w = false) :
    drain (fuel + 1) s = drain fuel { s with textBuffer := rest } := by
  have hsplit : splitAtNewline s.textBuffer = some (l, rest) := by
    rw [hbuf]
    exact splitAtNewline_append rest hnl
  exact drain_step_skip fuel hsplit (classifyLine_skip_of_no_content hd hnd hp he hf)

/-- Witness for C7: a `data: {}` line (parses, no choices field) is a
pure skip. -/
theorem C7_no_content_skip_witness :
    drain 60 ⟨"data: \x7b\x7d".toList ++ '\n' :: (exLineHi ++ ['\n']), false, [], []⟩ =
      drain 59 ⟨exLineHi ++ ['\n'], false, [], []⟩ :=
  C7_no_content_skip 59 (by decide) rfl (by decide) (by decide) rfl rfl (Or.inl rfl)

/-- Counterexample for C7 as stated: the payload `null` parses
successfully as JSON and has no choices[0].delta.content field, yet
processing it is not a no-op: the null property access throws, the line
is requeued (it stays at the head of textBuffer), extraction stops, and
a valid content line already buffered after it is never applied — the
run with the null line yields empty content while the run without it
yields "Hi". -/
theorem C7_counterexample :
    parsePayload "null".toList = some Json.null ∧
    extractContent Json.null = Except.error () ∧
    (feedChunk (initSt []) ("data: null".toList ++ '\n' :: (exLineHi ++ ['\n']))).assistantContent
      = [] ∧
    (feedChunk (initSt []) ("data: null".toList ++ '\n' :: (exLineHi ++ ['\n']))).textBuffer =
      "data: null".toList ++ '\n' :: (exLineHi ++ ['\n']) ∧
    (feedChunk (initSt []) (exLineHi ++ ['\n'])).assistantContent = "Hi".toList :=
  ⟨rfl, rfl, by decide, by decide, by decide⟩

/-- Claim C8 (corrected, amended part): at every suspension point
(a state about to read another chunk, hence streamDone is false), the
buffer either holds no newline at all, or begins with an intentionally
requeued data line whose payload fails — so every complete line
extracted has been fully processed, but a requeued complete line can
remain buffered. -/
theorem C8_buffer_invariant (s : St) (c : List Char)
    (h : (feedChunk s c).streamDone = false) :
    bufferInv (feedChunk s c).textBuffer := by
  unfold feedChunk at h ⊢
  exact drain_inv _ _ (List.count_le_length _ _) h

/-- Witness for C8: after a chunk carrying one malformed data line, the
buffer invariant holds (via the requeued-line disjunct). -/
theorem C8_buffer_invariant_witness :
    bufferInv (feedChunk (initSt []) "data: x\n".toList).textBuffer :=
  C8_buffer_invariant (initSt []) "data: x\n".toList (by decide)

/-- Counterexample for C8 as stated: after reading the single chunk
`data: x\n` the stream is not done (the loop will suspend for another
read) yet textBuffer holds a complete, newline-terminated event line —
the requeued `data: x` line. -/
theorem C8_counterexample :
    (feedChunk (initSt []) "data: x\n".toList).streamDone = false ∧
    (feedChunk (initSt []) "data: x\n".toList).textBuffer =
      "data: x".toList ++ '\n' :: [] ∧
    '\n' ∈ (feedChunk (initSt []) "data: x\n".toList).textBuffer :=
  ⟨by decide, by decide, by decide⟩

/-- Claim C9 (confirmed): every error thrown during a send — handshake
failure or mid-stream read failure — is caught at the handleSend
boundary: exactly one fallback assistant message is appended after the
transcript as it stood at the error, the busy flag is reset, the input
stays cleared, and everything appended before the error is retained (the
pre-send transcript with the user message is the error transcript or a
prefix of all but its in-progress last entry, and no entry is lost). -/
theorem C9_error_recovery {ui : UiState} {resp : Resp} {k : ChatErr} {E : List Msg}
    (hin : (trim ui.input).isEmpty = false) (hload : ui.isLoading = false)
    (herr : streamChatRun resp (ui.messages ++ [⟨Role.user, ui.input⟩]) = .error (k, E)) :
    handleSend ui resp = ⟨E ++ [fallbackMsg], [], false⟩ ∧
    transcriptSafe (ui.messages ++ [⟨Role.user, ui.input⟩]) E ∧
    (ui.messages ++ [(⟨Role.user, ui.input⟩ : Msg)]).length ≤ E.length := by
  have hbase : (ui.messages ++ [(⟨Role.user, ui.input⟩ : Msg)]).getLast? =
      some (⟨Role.user, ui.input⟩ : Msg) := List.getLast?_concat _
  have hsafe : transcriptSafe (ui.messages ++ [(⟨Role.user, ui.input⟩ : Msg)]) E := by
    unfold streamChatRun at herr
    by_cases hok : (resp.ok && resp.hasBody) = true
    · rw [if_pos hok] at herr
      have hs := @runChunksE_safe (ui.messages ++ [(⟨Role.user, ui.input⟩ : Msg)])
        ⟨Role.user, ui.input⟩ rfl hbase resp.chunks
        resp.readFails (initSt (ui.messages ++ [(⟨Role.user, ui.input⟩ : Msg)])) (Or.inl rfl)
      rw [herr] at hs
      exact hs
    · rw [if_neg hok] at herr
      have hE : ui.messages ++ [(⟨Role.user, ui.input⟩ : Msg)] = E := by
        have hp := (Except.error.injEq _ _).mp herr
        exact congrArg Prod.snd hp
      exact Or.inl hE.symm
  refine ⟨?_, hsafe, transcriptSafe_length hsafe⟩
  unfold handleSend
  rw [hin, hload]
  simp only [Bool.or_self, Bool.false_eq_true, if_false]
  rw [herr]

/-- Witness for C9: a read that rejects immediately yields the user
message plus the single fallback message, with the busy flag reset. -/
theorem C9_error_recovery_witness :
    handleSend ⟨[], "hi".toList, false⟩ ⟨true, true, [], true⟩ =
      ⟨[⟨Role.user, "hi".toList⟩] ++ [fallbackMsg], [], false⟩ :=
  (@C9_error_recovery ⟨[], "hi".toList, false⟩ ⟨true, true, [], true⟩ ChatErr.readFail
    [⟨Role.user, "hi".toList⟩] (by decide) rfl rfl).1

/-- Claim C10 (confirmed): every transcript update either replaces the
last entry's content (and only when it is an assistant entry and the
transcript holds more than one entry) or appends a new assistant entry;
all entries except the last are untouched (the dropLast is a prefix of
the result), the length never decreases, and on a one-entry transcript a
delta always appends even if that sole entry is an assistant message. -/
theorem C10_update_shape (ac : List Char) (prev : List Msg) :
    ((updateMessages ac prev = prev.dropLast ++ [⟨Role.assistant, ac⟩] ∧
        1 < prev.length ∧ ∃ m, prev.getLast? = some m ∧ m.role = Role.assistant) ∨
      updateMessages ac prev = prev ++ [⟨Role.assistant, ac⟩]) ∧
    prev.dropLast <+: updateMessages ac prev ∧
    prev.length ≤ (updateMessages ac prev).length ∧
    (prev.length = 1 → updateMessages ac prev = prev ++ [⟨Role.assistant, ac⟩]) := by
  unfold updateMessages
  by_cases hcond : ((match prev.getLast? with
      | some m => m.role == Role.assistant
      | none => false) && decide (1 < prev.length)) = true
  · rw [if_pos hcond]
    rcases Bool.and_eq_true_iff.mp hcond with ⟨hrole, hlen⟩
    have hlen' : 1 < prev.length := of_decide_eq_true hlen
    have hm : ∃ m, prev.getLast? = some m ∧ m.role = Role.assistant := by
      cases hl : prev.getLast? with
      | none => rw [hl] at hrole; cases hrole
      | some m =>
        rw [hl] at hrole
        exact ⟨m, rfl, by simpa using hrole⟩
    refine ⟨Or.inl ⟨rfl, hlen', hm⟩, List.prefix_append _ _, ?_, ?_⟩
    · rw [List.length_append, List.length_dropLast]
      simp
      omega
    · intro h1
      omega
  · rw [if_neg hcond]
    refine ⟨Or.inr rfl, (dropLast_isPrefix prev).trans (List.prefix_append _ _),
      by simp, fun _ => rfl⟩

/-- Witness for C10: on a transcript holding exactly one assistant
entry, a delta appends rather than mutating that sole entry. -/
theorem C10_update_shape_witness :
    updateMessages ['h'] [⟨Role.assistant, []⟩] =
      [⟨Role.assistant, []⟩] ++ [⟨Role.assistant, ['h']⟩] :=
  (C10_update_shape ['h'] [⟨Role.assistant, []⟩]).2.2.2 rfl

/-- Claim C1 (corrected, amended part): when a complete data line whose
payload is malformed JSON arrives split across two reads, the first read
buffers the fragment without extracting anything (no requeue happens
yet); once the newline arrives the assembler requeues the CR-stripped
line plus newline at the front of textBuffer and stops extraction for
that iteration; the payload is never parsed afterwards — the requeued
line pins the buffer, content and transcript never change however many
further chunks arrive, and the final content equals that of the unsplit
delivery. -/
theorem C1_requeue_no_recovery {msgs : List Msg} {f1 f2 : List Char}
    (cs : List (List Char))
    (hnl : '\n' ∉ f1 ++ f2) (hcl : classifyLine (f1 ++ f2) = LineAct.requeue) :
    feedChunk (initSt msgs) f1 = { initSt msgs with textBuffer := f1 } ∧
    feedChunk { initSt msgs with textBuffer := f1 } (f2 ++ ['\n']) =
      { initSt msgs with textBuffer := stripCR (f1 ++ f2) ++ '\n' :: [] } ∧
    (runChunks { initSt msgs with textBuffer := stripCR (f1 ++ f2) ++ '\n' :: [] }
        cs).assistantContent = [] ∧
    (runChunks { initSt msgs with textBuffer := stripCR (f1 ++ f2) ++ '\n' :: [] }
        cs).messages = msgs ∧
    (runChunks (initSt msgs) ((f1 ++ f2 ++ ['\n']) :: cs)).assistantContent = [] ∧
    (runChunks (initSt msgs) ((f1 ++ f2 ++ ['\n']) :: cs)).messages = msgs := by
  have hnf1 : '\n' ∉ f1 := fun hm => hnl (List.mem_append_left f2 hm)
  have hnstrip : '\n' ∉ stripCR (f1 ++ f2) := fun hm => hnl (stripCR_sub hm)
  have hclstrip : classifyLine (stripCR (f1 ++ f2)) = LineAct.requeue :=
    classify_requeue_strip hcl
  have h1 : feedChunk (initSt msgs) f1 = { initSt msgs with textBuffer := f1 } := by
    unfold feedChunk initSt
    simp only [List.nil_append]
    exact drain_no_newline _ hnf1
  have hstuck := @stuck_run cs
    { initSt msgs with textBuffer := stripCR (f1 ++ f2) ++ '\n' :: [] }
    (stripCR (f1 ++ f2)) [] rfl hnstrip hclstrip rfl
  have h2 : feedChunk { initSt msgs with textBuffer := f1 } (f2 ++ ['\n']) =
      { initSt msgs with textBuffer := stripCR (f1 ++ f2) ++ '\n' :: [] } := by
    have hbc : ({ initSt msgs with textBuffer := f1 } : St).textBuffer ++ (f2 ++ ['\n']) =
        (f1 ++ f2) ++ '\n' :: [] := by
      simp
    exact feedChunk_requeue (f2 ++ ['\n']) hbc hnl hcl
  have h5 : runChunks (initSt msgs) ((f1 ++ f2 ++ ['\n']) :: cs) =
      runChunks { initSt msgs with textBuffer := stripCR (f1 ++ f2) ++ '\n' :: [] } cs := by
    rw [runChunks_step _ _ rfl]
    have hbc : (initSt msgs).textBuffer ++ (f1 ++ f2 ++ ['\n']) =
        (f1 ++ f2) ++ '\n' :: [] := by
      simp [initSt]
    rw [feedChunk_requeue _ hbc hnl hcl]
  exact ⟨h1, h2, hstuck.1, hstuck.2.1, by rw [h5]; exact hstuck.1,
    by rw [h5]; exact hstuck.2.1⟩

/-- Witness for the amended C1: a malformed `data: {bad}` line split
after `data: {b` stalls the stream, leaving content empty even though a
valid content chunk follows. -/
theorem C1_requeue_no_recovery_witness :
    (runChunks { initSt ([] : List Msg) with
        textBuffer := stripCR ("data: \x7bb".toList ++ "ad\x7d".toList) ++ '\n' :: [] }
      [exLineHi ++ ['\n']]).assistantContent = [] :=
  (C1_requeue_no_recovery [exLineHi ++ ['\n']] (by decide) (by decide)).2.2.1

/-- Counterexample for C1 as stated: the split malformed line
`data: {bad}` is never "correctly reassembled and parsed" once its
remaining bytes arrive — its payload fails to parse outright, and after
all bytes (plus a valid content line and the sentinel) have arrived the
requeued line still sits at the front of textBuffer, the valid delta
was never applied, and the sentinel never processed. -/
theorem C1_counterexample :
    parsePayload "\x7bbad\x7d".toList = none ∧
    classifyLine exLineHi = LineAct.emit "Hi".toList ∧
    (runChunks (initSt [])
        ["data: \x7bbad".toList, "\x7d\n".toList,
          exLineHi ++ '\n' :: (exLineDone ++ ['\n'])]).assistantContent = [] ∧
    (runChunks (initSt [])
        ["data: \x7bbad".toList, "\x7d\n".toList,
          exLineHi ++ '\n' :: (exLineDone ++ ['\n'])]).streamDone = false ∧
    (runChunks (initSt [])
        ["data: \x7bbad".toList, "\x7d\n".toList,
          exLineHi ++ '\n' :: (exLineDone ++ ['\n'])]).textBuffer =
      "data: \x7bbad\x7d".toList ++ '\n' :: (exLineHi ++ '\n' :: (exLineDone ++ ['\n'])) :=
  ⟨rfl, by decide, by decide, by decide, by decide⟩

end DisasterChat
